import Mathlib

/-!
# Radix-2, 8-point FFT of `helloworld.c`

A shallow embedding of the processor-side FFT of `helloworld.c` (the tables
`bitRevIndex` and `W`, the functions `initialize_customWave`, `bitReverse`,
`FFT_PS`, and the result comparison loop of `main`), followed by the
theorems that settle the specification's testable properties.

Modelling conventions.

* A C array argument is a pointer; a buffer is modelled as a total map
  `Nat → K` from index to sample, and an assignment `a[i] = v` as `store a i v`.
  Distinct C buffers are distinct maps, so input and output never alias.
* The sample type `float complex` is modelled with exact arithmetic.  The
  algorithms only add, subtract and multiply samples, so they are written
  over an arbitrary type `K` with these operations; `Cplx R` is the
  concrete pair-of-scalars sample type (computable for `R = ℚ`), and `ℂ` is
  used where a claim speaks about `exp`.
* `ARR_LEN` is a macro of the source (value 8); it is a parameter here so
  that multi-block buffers can be stated.
* Uninitialised local arrays (`temp1`, `temp2`) and the previous contents of
  output buffers are explicit arguments, so every theorem quantifies over
  them.
-/

namespace FFT8

/-! ## Complex samples -/

/-- Complex sample with real and imaginary part in the scalar type `R`. -/
@[ext] structure Cplx (R : Type) where
  re : R
  im : R
deriving DecidableEq, Repr

namespace Cplx

variable {R : Type}

instance [Zero R] : Zero (Cplx R) := ⟨⟨0, 0⟩⟩
instance [One R] [Zero R] : One (Cplx R) := ⟨⟨1, 0⟩⟩
instance [Add R] : Add (Cplx R) := ⟨fun a b => ⟨a.re + b.re, a.im + b.im⟩⟩
instance [Sub R] : Sub (Cplx R) := ⟨fun a b => ⟨a.re - b.re, a.im - b.im⟩⟩
instance [Neg R] : Neg (Cplx R) := ⟨fun a => ⟨-a.re, -a.im⟩⟩
instance [Add R] [Sub R] [Mul R] : Mul (Cplx R) :=
  ⟨fun a b => ⟨a.re * b.re - a.im * b.im, a.re * b.im + a.im * b.re⟩⟩

/-- With scalars in a commutative ring the samples form a commutative ring. -/
instance instCommRing [CommRing R] : CommRing (Cplx R) where
  add_assoc a b c := Cplx.ext (add_assoc a.re b.re c.re) (add_assoc a.im b.im c.im)
  zero_add a := Cplx.ext (zero_add a.re) (zero_add a.im)
  add_zero a := Cplx.ext (add_zero a.re) (add_zero a.im)
  add_comm a b := Cplx.ext (add_comm a.re b.re) (add_comm a.im b.im)
  nsmul := nsmulRec
  zsmul := zsmulRec
  neg_add_cancel a := Cplx.ext (neg_add_cancel a.re) (neg_add_cancel a.im)
  sub_eq_add_neg a b := Cplx.ext (sub_eq_add_neg a.re b.re) (sub_eq_add_neg a.im b.im)
  mul_assoc a b c := Cplx.ext
    (show (a.re * b.re - a.im * b.im) * c.re - (a.re * b.im + a.im * b.re) * c.im
        = a.re * (b.re * c.re - b.im * c.im) - a.im * (b.re * c.im + b.im * c.re) by ring)
    (show (a.re * b.re - a.im * b.im) * c.im + (a.re * b.im + a.im * b.re) * c.re
        = a.re * (b.re * c.im + b.im * c.re) + a.im * (b.re * c.re - b.im * c.im) by ring)
  one_mul a := Cplx.ext
    (show 1 * a.re - 0 * a.im = a.re by ring) (show 1 * a.im + 0 * a.re = a.im by ring)
  mul_one a := Cplx.ext
    (show a.re * 1 - a.im * 0 = a.re by ring) (show a.re * 0 + a.im * 1 = a.im by ring)
  left_distrib a b c := Cplx.ext
    (show a.re * (b.re + c.re) - a.im * (b.im + c.im)
        = (a.re * b.re - a.im * b.im) + (a.re * c.re - a.im * c.im) by ring)
    (show a.re * (b.im + c.im) + a.im * (b.re + c.re)
        = (a.re * b.im + a.im * b.re) + (a.re * c.im + a.im * c.re) by ring)
  right_distrib a b c := Cplx.ext
    (show (a.re + b.re) * c.re - (a.im + b.im) * c.im
        = (a.re * c.re - a.im * c.im) + (b.re * c.re - b.im * c.im) by ring)
    (show (a.re + b.re) * c.im + (a.im + b.im) * c.re
        = (a.re * c.im + a.im * c.re) + (b.re * c.im + b.im * c.re) by ring)
  zero_mul a := Cplx.ext
    (show 0 * a.re - 0 * a.im = 0 by ring) (show 0 * a.im + 0 * a.re = 0 by ring)
  mul_zero a := Cplx.ext
    (show a.re * 0 - a.im * 0 = 0 by ring) (show a.re * 0 + a.im * 0 = 0 by ring)
  mul_comm a b := Cplx.ext
    (show a.re * b.re - a.im * b.im = b.re * a.re - b.im * a.im by ring)
    (show a.re * b.im + a.im * b.re = b.re * a.im + b.im * a.re by ring)

/-- Conversion of a real scalar to a complex sample (C's usual arithmetic conversion). -/
def ofReal [Zero R] (r : R) : Cplx R := ⟨r, 0⟩

/-- The imaginary unit, the macro `I` of `<complex.h>`. -/
def I [Zero R] [One R] : Cplx R := ⟨0, 1⟩

/-- The function `creal` of `<complex.h>`. -/
def creal (z : Cplx R) : R := z.re

/-- The function `cimag` of `<complex.h>`. -/
def cimag (z : Cplx R) : R := z.im

end Cplx

/-! ## Parameters and constant tables (lines 28-35) -/

/-- The macro `N`: transform length. -/
def N : Nat := 8

/-- The macro `LEVEL`: `log2(N)`. -/
def LEVEL : Nat := 3

/-- The table `const int bitRevIndex[N]`. -/
def bitRevIndex : List Nat := [0, 4, 2, 6, 1, 5, 3, 7]

/-- The table `const float complex W[N/2]`, every literal read as the exact
decimal number written. -/
def W {R : Type} [Field R] : List (Cplx R) :=
  [ Cplx.ofReal 1 - Cplx.ofReal 0 * Cplx.I,
    Cplx.ofReal 0.7071067811865476 - Cplx.ofReal 0.7071067811865475 * Cplx.I,
    Cplx.ofReal 0.0 - Cplx.ofReal 1 * Cplx.I,
    Cplx.ofReal (-0.7071067811865475) - Cplx.ofReal 0.7071067811865476 * Cplx.I ]

/-! ## Memory and loops -/

/-- Array assignment `a[i] = v`. -/
def store {K : Type} (a : Nat → K) (i : Nat) (v : K) : Nat → K :=
  fun n => if n = i then v else a n

/-- The loop `for (i = i0; i < bound; i += step) body`, started at `i` in state `s`. -/
def forLoop {σ : Type} (bound step : Nat) (hstep : 0 < step) (body : Nat → σ → σ)
    (i : Nat) (s : σ) : σ :=
  if i < bound then forLoop bound step hstep body (i + step) (body i s) else s
termination_by bound - i
decreasing_by omega

/-! ## `initialize_customWave` (lines 188-201) -/

/-- The function `initialize_customWave`: fills every block of `arr` with the
fixed 8-sample wave. -/
def initialize_customWave {R : Type} [Field R] (ARR_LEN : Nat) (arr : Nat → Cplx R) :
    Nat → Cplx R :=
  forLoop ARR_LEN N (by decide) (fun i arr =>
    let arr := store arr i (Cplx.ofReal 11 + Cplx.ofReal 23 * Cplx.I)
    let arr := store arr (i + 1) (Cplx.ofReal 32 + Cplx.ofReal 10 * Cplx.I)
    let arr := store arr (i + 2) (Cplx.ofReal 91 + Cplx.ofReal 94 * Cplx.I)
    let arr := store arr (i + 3) (Cplx.ofReal 15 + Cplx.ofReal 69 * Cplx.I)
    let arr := store arr (i + 4) (Cplx.ofReal 47 + Cplx.ofReal 96 * Cplx.I)
    let arr := store arr (i + 5) (Cplx.ofReal 44 + Cplx.ofReal 12 * Cplx.I)
    let arr := store arr (i + 6) (Cplx.ofReal 96 + Cplx.ofReal 17 * Cplx.I)
    store arr (i + 7) (Cplx.ofReal 49 + Cplx.ofReal 58 * Cplx.I)) 0 arr

/-! ## `bitReverse` (lines 203-213) -/

/-- The function `bitReverse`: returns the final contents of `dataOut`. -/
def bitReverse {K : Type} (ARR_LEN : Nat) (dataIn dataOut : Nat → K) : Nat → K :=
  forLoop ARR_LEN N (by decide) (fun i dataOut =>
    forLoop N 1 (by decide) (fun j dataOut =>
      store dataOut (i + j) (dataIn (i + bitRevIndex.getD j 0))) 0 dataOut) 0 dataOut

/-! ## `FFT_PS` (lines 215-249) -/

/-- The arrays written by `FFT_PS`: the locals `temp1`, `temp2` and the buffer `Data_out`. -/
structure FFTState (K : Type) where
  temp1 : Nat → K
  temp2 : Nat → K
  Data_out : Nat → K

/-- First inner loop of `FFT_PS` (lines 226-230): writes `temp1`. -/
def FFT_PS_loop1 {K : Type} [Add K] [Sub K] (Data_in_wOffset : Nat → K) (temp1 : Nat → K) :
    Nat → K :=
  forLoop N 2 (by decide) (fun j temp1 =>
    let temp1 := store temp1 j (Data_in_wOffset j + Data_in_wOffset (j + 1))
    store temp1 (j + 1) (Data_in_wOffset j - Data_in_wOffset (j + 1))) 0 temp1

/-- Second inner loop nest of `FFT_PS` (lines 232-240): reads `temp1`, writes `temp2`. -/
def FFT_PS_loop2 {K : Type} [Add K] [Sub K] [Mul K] [Zero K] (W : List K) (temp1 : Nat → K)
    (temp2 : Nat → K) : Nat → K :=
  forLoop N 4 (by decide) (fun j temp2 =>
    forLoop 2 1 (by decide) (fun k temp2 =>
      let tempComplex := W.getD (2 * k) 0 * temp1 (j + k + 2)
      let temp2 := store temp2 (j + k) (temp1 (j + k) + tempComplex)
      store temp2 (j + k + 2) (temp1 (j + k) - tempComplex)) 0 temp2) 0 temp2

/-- Third inner loop of `FFT_PS` (lines 242-247): reads `temp2`, writes the
output block through `Data_out_wOffset = Data_out + i`. -/
def FFT_PS_loop3 {K : Type} [Add K] [Sub K] [Mul K] [Zero K] (W : List K) (i : Nat)
    (temp2 : Nat → K) (Data_out : Nat → K) : Nat → K :=
  forLoop (N / 2) 1 (by decide) (fun j Data_out =>
    let tempComplex := W.getD j 0 * temp2 (j + 4)
    let Data_out := store Data_out (i + j) (temp2 j + tempComplex)
    store Data_out (i + (j + 4)) (temp2 j - tempComplex)) 0 Data_out

/-- Body of the block loop of `FFT_PS` (lines 224-247) for the block starting at `i`. -/
def FFT_PS_block {K : Type} [Add K] [Sub K] [Mul K] [Zero K] (W : List K) (Data_in : Nat → K)
    (i : Nat) (s : FFTState K) : FFTState K :=
  let Data_in_wOffset := fun n => Data_in (i + n)
  let temp1 := FFT_PS_loop1 Data_in_wOffset s.temp1
  let temp2 := FFT_PS_loop2 W temp1 s.temp2
  { temp1 := temp1, temp2 := temp2, Data_out := FFT_PS_loop3 W i temp2 s.Data_out }

/-- The function `FFT_PS` with the twiddle table as an argument: the final
state of `temp1`, `temp2` and `Data_out`. -/
def FFT_PS_run {K : Type} [Add K] [Sub K] [Mul K] [Zero K] (W : List K) (ARR_LEN : Nat)
    (Data_in : Nat → K) (s : FFTState K) : FFTState K :=
  forLoop ARR_LEN N (by decide) (FFT_PS_block W Data_in) 0 s

/-- The function `FFT_PS`: the final contents of `Data_out`.  The table `W`
is passed explicitly (the source reads the global `W`), `temp1` and `temp2`
are the initial contents of the uninitialised locals. -/
def FFT_PS {K : Type} [Add K] [Sub K] [Mul K] [Zero K] (W : List K) (ARR_LEN : Nat)
    (Data_in Data_out temp1 temp2 : Nat → K) : Nat → K :=
  (FFT_PS_run W ARR_LEN Data_in ⟨temp1, temp2, Data_out⟩).Data_out

/-! ## Result comparison loop of `main` (lines 145-174) -/

/-- Conversion of a floating value to `int`, as C performs it on the argument
of a function declared with an `int` parameter: the fractional part is
discarded (truncation toward zero).  The conversion is undefined in C when
the truncated value is outside the range of `int`; the model is unbounded, so
it describes the code only for arguments of magnitude below `2^31`, and the
general statements about the loop carry that bound as a hypothesis. -/
def toInt {R : Type} [LinearOrderedField R] [FloorRing R] (x : R) : Int :=
  if 0 ≤ x then ⌊x⌋ else ⌈x⌉

/-- The call `abs(x)` of the source on a floating argument: `abs` is the
`<stdlib.h>` function `int abs(int)`, so the argument is converted to `int`
first and the result is an `int`. -/
def abs_int {R : Type} [LinearOrderedField R] [FloorRing R] (x : R) : Int :=
  |toInt x|

/-- The comparison loop `for (j = 0; j < ARR_LEN; j++)` of `main`, started at
index `j`: returns the final `err_flag` and the final value of `j` (the
index of the `break`, or `ARR_LEN`). -/
def main_compare {R : Type} [LinearOrderedField R] [FloorRing R] (ARR_LEN : Nat)
    (Data_PSout Data_PLout : Nat → Cplx R) (j : Nat) : Bool × Nat :=
  if j < ARR_LEN then
    let diff_i : R := abs_int (Cplx.creal (Data_PSout j) - Cplx.creal (Data_PLout j))
    let diff_r : R := abs_int (Cplx.cimag (Data_PSout j) - Cplx.cimag (Data_PLout j))
    if diff_r > 0.001 ∨ diff_i > 0.001 then (true, j)
    else main_compare ARR_LEN Data_PSout Data_PLout (j + 1)
  else (false, j)
termination_by ARR_LEN - j
decreasing_by omega

/-- What `main` prints after the comparison loop. -/
inductive Report where
  | mismatch (j : Nat)
  | allMatch
deriving DecidableEq, Repr

/-- The comparison of `main`: the loop from `j = 0` and the report chosen by `err_flag`. -/
def main_report {R : Type} [LinearOrderedField R] [FloorRing R] (ARR_LEN : Nat)
    (Data_PSout Data_PLout : Nat → Cplx R) : Report :=
  let r := main_compare ARR_LEN Data_PSout Data_PLout 0
  if r.1 then Report.mismatch r.2 else Report.allMatch

/-! ## Closed forms used in the proofs -/

/-- Values of `temp1` after the first loop, as a function of the input block. -/
def stage1Val {K : Type} [Add K] [Sub K] (d : Nat → K) (n : Nat) : K :=
  match n with
  | 0 => d 0 + d 1
  | 1 => d 0 - d 1
  | 2 => d 2 + d 3
  | 3 => d 2 - d 3
  | 4 => d 4 + d 5
  | 5 => d 4 - d 5
  | 6 => d 6 + d 7
  | 7 => d 6 - d 7
  | _ => d n

/-- Values of `temp2` after the second loop nest, as a function of `temp1`. -/
def stage2Val {K : Type} [Add K] [Sub K] [Mul K] [Zero K] (W : List K) (a : Nat → K)
    (n : Nat) : K :=
  match n with
  | 0 => a 0 + W.getD 0 0 * a 2
  | 1 => a 1 + W.getD 2 0 * a 3
  | 2 => a 0 - W.getD 0 0 * a 2
  | 3 => a 1 - W.getD 2 0 * a 3
  | 4 => a 4 + W.getD 0 0 * a 6
  | 5 => a 5 + W.getD 2 0 * a 7
  | 6 => a 4 - W.getD 0 0 * a 6
  | 7 => a 5 - W.getD 2 0 * a 7
  | _ => a n

/-- Values of the output block after the third loop, as a function of `temp2`. -/
def stage3Val {K : Type} [Add K] [Sub K] [Mul K] [Zero K] (W : List K) (b : Nat → K)
    (n : Nat) : K :=
  match n with
  | 0 => b 0 + W.getD 0 0 * b 4
  | 1 => b 1 + W.getD 1 0 * b 5
  | 2 => b 2 + W.getD 2 0 * b 6
  | 3 => b 3 + W.getD 3 0 * b 7
  | 4 => b 0 - W.getD 0 0 * b 4
  | 5 => b 1 - W.getD 1 0 * b 5
  | 6 => b 2 - W.getD 2 0 * b 6
  | 7 => b 3 - W.getD 3 0 * b 7
  | _ => b n

/-- The three butterfly stages composed: the output block as a function of the input block. -/
def fft8 {K : Type} [Add K] [Sub K] [Mul K] [Zero K] (W : List K) (d : Nat → K) : Nat → K :=
  stage3Val W (stage2Val W (stage1Val d))

/-! ## Definitions that follow the specification's words -/

/-- Reversal of the 3-bit binary representation of `j`: bit 0 becomes bit 2,
bit 1 stays, bit 2 becomes bit 0. -/
def rev3 (j : Nat) : Nat :=
  4 * (j % 2) + 2 * (j / 2 % 2) + j / 4 % 2

/-- One butterfly of the specification's stage algorithm (section 4.3), on
the group starting at `g` of size `m`, butterfly index `k`, transform size
`n`: `a = d[g+k]`, `b = d[g+k+m/2]`, `t = twiddle[k*(n/m)] * b`, then
`d[g+k] = a + t` and `d[g+k+m/2] = a - t`. -/
def specButterfly {K : Type} [Add K] [Sub K] [Mul K] [Zero K] (twiddle : List K)
    (n m g k : Nat) (d : Nat → K) : Nat → K :=
  let a := d (g + k)
  let b := d (g + k + m / 2)
  let twiddle_index := k * (n / m)
  let t := twiddle.getD twiddle_index 0 * b
  store (store d (g + k) (a + t)) (g + k + m / 2) (a - t)

/-- Stage `s` of the specification's algorithm: the data is partitioned into
groups of size `m = 2^s`, and every group runs its `m/2` butterflies. -/
def specStage {K : Type} [Add K] [Sub K] [Mul K] [Zero K] (twiddle : List K)
    (n s : Nat) (d : Nat → K) : Nat → K :=
  let m := 2 ^ s
  (List.range (n / m)).foldl (fun d grp =>
    (List.range (m / 2)).foldl (fun d k => specButterfly twiddle n m (grp * m) k d) d) d

/-- The specification's transform: stages `1 .. levels` in order. -/
def specFFT {K : Type} [Add K] [Sub K] [Mul K] [Zero K] (twiddle : List K)
    (n levels : Nat) (d : Nat → K) : Nat → K :=
  (List.range levels).foldl (fun d s => specStage twiddle n (s + 1) d) d

/-! ## Bridges used in the statements -/

/-- Embedding of the samples over the reals into the complex numbers. -/
def toComplex (z : Cplx ℝ) : ℂ := ⟨z.re, z.im⟩

/-- The processor result `Data_PSout` that `main` computes for the custom
wave, with all buffers initially zero. -/
def cpuResult : Nat → Cplx ℚ :=
  FFT_PS W 8 (bitReverse 8 (initialize_customWave 8 (fun _ => 0)) (fun _ => 0))
    (fun _ => 0) (fun _ => 0) (fun _ => 0)

/-- An accelerator result `Data_PLout` that equals the processor result except
that the real part of element 0 is larger by one half. -/
def fpgaOffByHalf : Nat → Cplx ℚ :=
  store cpuResult 0 (cpuResult 0 + ⟨1 / 2, 0⟩)

/-! ## Projections of the sample operations -/

namespace Cplx

variable {R : Type}

@[simp] theorem zero_re [Zero R] : (0 : Cplx R).re = 0 := rfl
@[simp] theorem zero_im [Zero R] : (0 : Cplx R).im = 0 := rfl
@[simp] theorem one_re [Zero R] [One R] : (1 : Cplx R).re = 1 := rfl
@[simp] theorem one_im [Zero R] [One R] : (1 : Cplx R).im = 0 := rfl
@[simp] theorem add_re [Add R] (a b : Cplx R) : (a + b).re = a.re + b.re := rfl
@[simp] theorem add_im [Add R] (a b : Cplx R) : (a + b).im = a.im + b.im := rfl
@[simp] theorem sub_re [Sub R] (a b : Cplx R) : (a - b).re = a.re - b.re := rfl
@[simp] theorem sub_im [Sub R] (a b : Cplx R) : (a - b).im = a.im - b.im := rfl
@[simp] theorem neg_re [Neg R] (a : Cplx R) : (-a).re = -a.re := rfl
@[simp] theorem neg_im [Neg R] (a : Cplx R) : (-a).im = -a.im := rfl
@[simp] theorem mul_re [Add R] [Sub R] [Mul R] (a b : Cplx R) :
    (a * b).re = a.re * b.re - a.im * b.im := rfl
@[simp] theorem mul_im [Add R] [Sub R] [Mul R] (a b : Cplx R) :
    (a * b).im = a.re * b.im + a.im * b.re := rfl
@[simp] theorem ofReal_re [Zero R] (r : R) : (ofReal r).re = r := rfl
@[simp] theorem ofReal_im [Zero R] (r : R) : (ofReal r).im = 0 := rfl
@[simp] theorem I_re [Zero R] [One R] : (I : Cplx R).re = 0 := rfl
@[simp] theorem I_im [Zero R] [One R] : (I : Cplx R).im = 1 := rfl
@[simp] theorem creal_eq (z : Cplx R) : creal z = z.re := rfl
@[simp] theorem cimag_eq (z : Cplx R) : cimag z = z.im := rfl

end Cplx

/-! ## Loop and memory lemmas -/

/-- One iteration of a loop whose test succeeds. -/
theorem forLoop_lt {σ : Type} (bound step : Nat) (hstep : 0 < step) (body : Nat → σ → σ)
    (i : Nat) (s : σ) (h : i < bound) :
    forLoop bound step hstep body i s = forLoop bound step hstep body (i + step) (body i s) := by
  rw [forLoop, if_pos h]

/-- A loop whose test fails leaves the state unchanged. -/
theorem forLoop_ge {σ : Type} (bound step : Nat) (hstep : 0 < step) (body : Nat → σ → σ)
    (i : Nat) (s : σ) (h : bound ≤ i) :
    forLoop bound step hstep body i s = s := by
  rw [forLoop, if_neg (by omega)]

/-- A loop over whole blocks, started at block `b`, visits the block starts
`step * b, ..., step * (k - 1)` in order; in particular it terminates by its test. -/
theorem forLoop_blocks {σ : Type} (step : Nat) (hstep : 0 < step) (body : Nat → σ → σ)
    (k : Nat) : ∀ (b : Nat) (s : σ), b ≤ k →
    forLoop (step * k) step hstep body (step * b) s
      = (List.range' b (k - b)).foldl (fun s c => body (step * c) s) s := by
  intro b s hb
  generalize hd : k - b = d
  induction d generalizing b s with
  | zero =>
    have : b = k := by omega
    subst this
    rw [forLoop_ge _ _ _ _ _ _ (le_refl _)]
    simp
  | succ d ih =>
    have hlt : step * b < step * k := Nat.mul_lt_mul_of_pos_left (by omega) hstep
    rw [forLoop_lt _ _ _ _ _ _ hlt]
    have : step * b + step = step * (b + 1) := by ring
    rw [this, ih (b + 1) _ (by omega) (by omega)]
    simp [List.range']

/-- A loop over `k + 1` blocks is the loop over `k` blocks followed by the body on block `k`. -/
theorem forLoop_blocks_succ {σ : Type} (step : Nat) (hstep : 0 < step) (body : Nat → σ → σ)
    (k : Nat) (s : σ) :
    forLoop (step * (k + 1)) step hstep body 0 s
      = body (step * k) (forLoop (step * k) step hstep body 0 s) := by
  have h1 := forLoop_blocks step hstep body (k + 1) 0 s (by omega)
  have h2 := forLoop_blocks step hstep body k 0 s (by omega)
  simp only [Nat.mul_zero, Nat.sub_zero] at h1 h2
  rw [h1, h2, List.range'_1_concat, List.foldl_append]
  simp

/-- Reading an array after an assignment. -/
theorem store_apply {K : Type} (a : Nat → K) (i : Nat) (v : K) (n : Nat) :
    store a i v n = if n = i then v else a n := rfl

/-- The inner loop of `bitReverse`, unrolled. -/
theorem bitReverse_inner {K : Type} (dataIn dataOut : Nat → K) (i : Nat) :
    forLoop N 1 (by decide) (fun j dataOut =>
      store dataOut (i + j) (dataIn (i + bitRevIndex.getD j 0))) 0 dataOut
    = store (store (store (store (store (store (store (store dataOut
        i (dataIn i)) (i + 1) (dataIn (i + 4))) (i + 2) (dataIn (i + 2)))
        (i + 3) (dataIn (i + 6))) (i + 4) (dataIn (i + 1))) (i + 5) (dataIn (i + 5)))
        (i + 6) (dataIn (i + 3))) (i + 7) (dataIn (i + 7)) := by
  simp [forLoop_lt, forLoop_ge, N, bitRevIndex]

/-- The inner loop of `bitReverse` writes exactly the block at `i`. -/
theorem bitReverse_inner_apply {K : Type} (dataIn dataOut : Nat → K) (i n : Nat) :
    forLoop N 1 (by decide) (fun j dataOut =>
      store dataOut (i + j) (dataIn (i + bitRevIndex.getD j 0))) 0 dataOut n
    = if i ≤ n ∧ n < i + 8 then dataIn (i + bitRevIndex.getD (n - i) 0) else dataOut n := by
  rw [bitReverse_inner]
  by_cases h : i ≤ n ∧ n < i + 8
  · obtain ⟨j, rfl⟩ : ∃ j, n = i + j := ⟨n - i, by omega⟩
    have hj : j < 8 := by omega
    rw [if_pos h]
    interval_cases j <;> simp [store_apply, bitRevIndex]
  · rw [if_neg h]
    have h0 : n ≠ i := by omega
    have h1 : n ≠ i + 1 := by omega
    have h2 : n ≠ i + 2 := by omega
    have h3 : n ≠ i + 3 := by omega
    have h4 : n ≠ i + 4 := by omega
    have h5 : n ≠ i + 5 := by omega
    have h6 : n ≠ i + 6 := by omega
    have h7 : n ≠ i + 7 := by omega
    simp [store_apply, h0, h1, h2, h3, h4, h5, h6, h7]

/-- Contents of `dataOut` after `bitReverse` on a buffer of `k` blocks. -/
theorem bitReverse_apply {K : Type} (k : Nat) (dataIn dataOut : Nat → K) (n : Nat) :
    bitReverse (8 * k) dataIn dataOut n
      = if n < 8 * k then dataIn (8 * (n / 8) + bitRevIndex.getD (n % 8) 0) else dataOut n := by
  induction k generalizing n with
  | zero =>
    simp [bitReverse, forLoop_ge]
  | succ k ih =>
    have step : bitReverse (8 * (k + 1)) dataIn dataOut
        = forLoop N 1 (by decide) (fun j dataOut =>
            store dataOut (8 * k + j) (dataIn (8 * k + bitRevIndex.getD j 0))) 0
            (bitReverse (8 * k) dataIn dataOut) :=
      forLoop_blocks_succ N (by decide) _ k dataOut
    rw [step, bitReverse_inner_apply, ih]
    by_cases h1 : n < 8 * k
    · rw [if_neg (by omega), if_pos h1, if_pos (by omega)]
    · by_cases h2 : n < 8 * (k + 1)
      · rw [if_pos (by omega), if_pos h2]
        have e1 : n / 8 = k := by omega
        have e2 : n - 8 * k = n % 8 := by omega
        rw [e1, e2]
      · rw [if_neg (by omega), if_neg h1, if_neg h2]

/-- The first loop of `FFT_PS`, unrolled. -/
theorem FFT_PS_loop1_eq {K : Type} [Add K] [Sub K] (d t : Nat → K) :
    FFT_PS_loop1 d t
    = store (store (store (store (store (store (store (store t
        0 (d 0 + d 1)) 1 (d 0 - d 1)) 2 (d 2 + d 3)) 3 (d 2 - d 3))
        4 (d 4 + d 5)) 5 (d 4 - d 5)) 6 (d 6 + d 7)) 7 (d 6 - d 7) := by
  simp [FFT_PS_loop1, forLoop_lt, forLoop_ge, N]

/-- The second loop nest of `FFT_PS`, unrolled. -/
theorem FFT_PS_loop2_eq {K : Type} [Add K] [Sub K] [Mul K] [Zero K] (W : List K)
    (a t : Nat → K) :
    FFT_PS_loop2 W a t
    = store (store (store (store (store (store (store (store t
        0 (a 0 + W.getD 0 0 * a 2)) 2 (a 0 - W.getD 0 0 * a 2))
        1 (a 1 + W.getD 2 0 * a 3)) 3 (a 1 - W.getD 2 0 * a 3))
        4 (a 4 + W.getD 0 0 * a 6)) 6 (a 4 - W.getD 0 0 * a 6))
        5 (a 5 + W.getD 2 0 * a 7)) 7 (a 5 - W.getD 2 0 * a 7) := by
  simp [FFT_PS_loop2, forLoop_lt, forLoop_ge, N]

/-- The third loop of `FFT_PS`, unrolled. -/
theorem FFT_PS_loop3_eq {K : Type} [Add K] [Sub K] [Mul K] [Zero K] (W : List K) (i : Nat)
    (b o : Nat → K) :
    FFT_PS_loop3 W i b o
    = store (store (store (store (store (store (store (store o
        i (b 0 + W.getD 0 0 * b 4)) (i + 4) (b 0 - W.getD 0 0 * b 4))
        (i + 1) (b 1 + W.getD 1 0 * b 5)) (i + 5) (b 1 - W.getD 1 0 * b 5))
        (i + 2) (b 2 + W.getD 2 0 * b 6)) (i + 6) (b 2 - W.getD 2 0 * b 6))
        (i + 3) (b 3 + W.getD 3 0 * b 7)) (i + 7) (b 3 - W.getD 3 0 * b 7) := by
  simp [FFT_PS_loop3, forLoop_lt, forLoop_ge, N]


/-- One block iteration of `FFT_PS` writes exactly the output block at `i`, with values
that depend only on the input block and the table, not on `temp1`, `temp2`. -/
theorem FFT_PS_block_Data_out {K : Type} [Add K] [Sub K] [Mul K] [Zero K] (W : List K)
    (Data_in : Nat → K) (i : Nat) (s : FFTState K) (n : Nat) :
    (FFT_PS_block W Data_in i s).Data_out n
      = if i ≤ n ∧ n < i + 8 then fft8 W (fun m => Data_in (i + m)) (n - i)
        else s.Data_out n := by
  simp only [FFT_PS_block, FFT_PS_loop3_eq, FFT_PS_loop2_eq, FFT_PS_loop1_eq]
  by_cases h : i ≤ n ∧ n < i + 8
  · obtain ⟨j, rfl⟩ : ∃ j, n = i + j := ⟨n - i, by omega⟩
    have hj : j < 8 := by omega
    rw [if_pos h]
    interval_cases j <;> simp [store_apply, fft8, stage1Val, stage2Val, stage3Val]
  · rw [if_neg h]
    have h0 : n ≠ i := by omega
    have h1 : n ≠ i + 1 := by omega
    have h2 : n ≠ i + 2 := by omega
    have h3 : n ≠ i + 3 := by omega
    have h4 : n ≠ i + 4 := by omega
    have h5 : n ≠ i + 5 := by omega
    have h6 : n ≠ i + 6 := by omega
    have h7 : n ≠ i + 7 := by omega
    simp [store_apply, h0, h1, h2, h3, h4, h5, h6, h7]

/-- Contents of `Data_out` after the block loop of `FFT_PS` over `k` blocks. -/
theorem FFT_PS_run_Data_out {K : Type} [Add K] [Sub K] [Mul K] [Zero K] (W : List K)
    (k : Nat) (Data_in : Nat → K) (s : FFTState K) (n : Nat) :
    (FFT_PS_run W (8 * k) Data_in s).Data_out n
      = if n < 8 * k then fft8 W (fun m => Data_in (8 * (n / 8) + m)) (n % 8)
        else s.Data_out n := by
  induction k generalizing n with
  | zero =>
    simp [FFT_PS_run, forLoop_ge]
  | succ k ih =>
    have step : FFT_PS_run W (8 * (k + 1)) Data_in s
        = FFT_PS_block W Data_in (8 * k) (FFT_PS_run W (8 * k) Data_in s) :=
      forLoop_blocks_succ N (by decide) _ k s
    rw [step, FFT_PS_block_Data_out, ih]
    by_cases h1 : n < 8 * k
    · rw [if_neg (by omega), if_pos h1, if_pos (by omega)]
    · by_cases h2 : n < 8 * (k + 1)
      · rw [if_pos (by omega), if_pos h2]
        have e1 : n / 8 = k := by omega
        have e2 : n - 8 * k = n % 8 := by omega
        rw [e1, e2]
      · rw [if_neg (by omega), if_neg h1, if_neg h2]

/-- Contents of `Data_out` after `FFT_PS` on a buffer of `k` blocks. -/
theorem FFT_PS_apply {K : Type} [Add K] [Sub K] [Mul K] [Zero K] (W : List K)
    (k : Nat) (Data_in Data_out temp1 temp2 : Nat → K) (n : Nat) :
    FFT_PS W (8 * k) Data_in Data_out temp1 temp2 n
      = if n < 8 * k then fft8 W (fun m => Data_in (8 * (n / 8) + m)) (n % 8)
        else Data_out n := by
  unfold FFT_PS
  rw [FFT_PS_run_Data_out]

/-! ## The bit-reversal table -/

theorem bitRevIndex_eq_rev3 (j : Nat) (hj : j < 8) : bitRevIndex.getD j 0 = rev3 j := by
  interval_cases j <;> rfl

theorem rev3_lt (j : Nat) (hj : j < 8) : rev3 j < 8 := by
  interval_cases j <;> decide

theorem rev3_rev3 (j : Nat) (hj : j < 8) : rev3 (rev3 j) = j := by
  interval_cases j <;> rfl

theorem rev3_testBit (j : Nat) (hj : j < 8) (i : Nat) (hi : i < 3) :
    (rev3 j).testBit i = j.testBit (2 - i) := by
  interval_cases j <;> interval_cases i <;> rfl

/-- Element `j` of block `b` after `bitReverse`. -/
theorem bitReverse_block {K : Type} (k : Nat) (dataIn dataOut : Nat → K) (b j : Nat)
    (hb : b < k) (hj : j < 8) :
    bitReverse (8 * k) dataIn dataOut (8 * b + j) = dataIn (8 * b + rev3 j) := by
  rw [bitReverse_apply, if_pos (by omega)]
  have e1 : (8 * b + j) / 8 = b := by omega
  have e2 : (8 * b + j) % 8 = j := by omega
  rw [e1, e2, bitRevIndex_eq_rev3 j hj]

/-! ## One block of `FFT_PS` -/

/-- The butterfly network reads its input block at the indices `0..7` only. -/
theorem fft8_congr {K : Type} [Add K] [Sub K] [Mul K] [Zero K] (W : List K)
    (d e : Nat → K) (h : ∀ m, m < 8 → d m = e m) (j : Nat) (hj : j < 8) :
    fft8 W d j = fft8 W e j := by
  have h0 := h 0 (by decide)
  have h1 := h 1 (by decide)
  have h2 := h 2 (by decide)
  have h3 := h 3 (by decide)
  have h4 := h 4 (by decide)
  have h5 := h 5 (by decide)
  have h6 := h 6 (by decide)
  have h7 := h 7 (by decide)
  interval_cases j <;>
    simp [fft8, stage1Val, stage2Val, stage3Val, h0, h1, h2, h3, h4, h5, h6, h7]

/-- Output of `FFT_PS` on a single block. -/
theorem FFT_PS_one_block {K : Type} [Add K] [Sub K] [Mul K] [Zero K] (W : List K)
    (d out0 t1 t2 : Nat → K) (j : Nat) (hj : j < 8) :
    FFT_PS W 8 d out0 t1 t2 j = fft8 W d j := by
  have h := FFT_PS_apply W 1 d out0 t1 t2 j
  rw [if_pos (by omega)] at h
  have e3 : j / 8 = 0 := by omega
  have e4 : j % 8 = j := by omega
  simp only [Nat.mul_one, e3, e4, Nat.mul_zero, Nat.zero_add] at h
  exact h

/-- Element `j` of output block `b` after `bitReverse` followed by `FFT_PS`. -/
theorem FFT_PS_bitReverse_apply {K : Type} [Add K] [Sub K] [Mul K] [Zero K] (W : List K)
    (k b j : Nat) (hb : b < k) (hj : j < 8) (x rev0 out0 t1 t2 : Nat → K) :
    FFT_PS W (8 * k) (bitReverse (8 * k) x rev0) out0 t1 t2 (8 * b + j)
      = fft8 W (fun m => x (8 * b + rev3 m)) j := by
  have e1 : (8 * b + j) / 8 = b := by omega
  have e2 : (8 * b + j) % 8 = j := by omega
  rw [FFT_PS_apply, if_pos (by omega), e1, e2]
  exact fft8_congr W _ _ (fun m hm => bitReverse_block k x rev0 b m hb hm) j hj

/-- The butterfly network is linear in its input block, for every table. -/
theorem fft8_linear {K : Type} [CommRing K] (W : List K) (a b : K) (x y : Nat → K) (j : Nat)
    (hj : j < 8) :
    fft8 W (fun n => a * x n + b * y n) j = a * fft8 W x j + b * fft8 W y j := by
  interval_cases j <;> simp only [fft8, stage1Val, stage2Val, stage3Val] <;> ring

theorem pow_add_eight {K : Type} [CommRing K] (w : K) (h : w ^ 4 = -1) (m : Nat) :
    w ^ (m + 8) = w ^ m := by
  have h8 : w ^ 8 = 1 := by
    calc w ^ 8 = (w ^ 4) ^ 2 := by ring
      _ = 1 := by rw [h]; ring
  rw [pow_add, h8, mul_one]

/-- With the table `1, w, w^2, w^3` for a `w` with `w^4 = -1`, the butterfly
network applied to the bit-reversed block is the direct transform with kernel
`w^(k*n)`. -/
theorem fft8_eq_dft {K : Type} [CommRing K] (W : List K) (w : K) (h : w ^ 4 = -1)
    (h0 : W.getD 0 0 = 1) (h1 : W.getD 1 0 = w) (h2 : W.getD 2 0 = w ^ 2)
    (h3 : W.getD 3 0 = w ^ 3) (x : Nat → K) (k : Nat) (hk : k < 8) :
    fft8 W (fun m => x (rev3 m)) k = ∑ n in Finset.range 8, x n * w ^ (k * n) := by
  have e4 : w ^ 4 = -1 := h
  have e5 : w ^ 5 = -w := by rw [show w ^ 5 = w ^ 4 * w by ring, h]; ring
  have e6 : w ^ 6 = -w ^ 2 := by rw [show w ^ 6 = w ^ 4 * w ^ 2 by ring, h]; ring
  have e7 : w ^ 7 = -w ^ 3 := by rw [show w ^ 7 = w ^ 4 * w ^ 3 by ring, h]; ring
  have p8 := pow_add_eight w h
  interval_cases k <;>
    simp only [fft8, stage1Val, stage2Val, stage3Val, h0, h1, h2, h3, rev3,
      Finset.sum_range_succ, Finset.sum_range_zero] <;>
    norm_num <;>
    (try simp only [p8]) <;>
    ring_nf <;>
    (try simp only [e4, e5, e6, e7]) <;>
    (try ring)

/-! ## The exact twiddle factors -/

theorem omega_pow (m : Nat) :
    Complex.exp (-2 * Real.pi * Complex.I / 8) ^ m
      = Complex.exp (-2 * Real.pi * Complex.I * m / 8) := by
  rw [← Complex.exp_nat_mul]
  congr 1
  ring

theorem omega_pow_four : Complex.exp (-2 * Real.pi * Complex.I / 8) ^ 4 = -1 := by
  rw [← Complex.exp_nat_mul]
  have e : ((4 : ℕ) : ℂ) * (-2 * Real.pi * Complex.I / 8) = -(Real.pi * Complex.I) := by
    push_cast; ring
  rw [e, Complex.exp_neg, Complex.exp_pi_mul_I]
  norm_num

theorem omega_eq : Complex.exp (-2 * Real.pi * Complex.I / 8) = ⟨√2 / 2, -(√2 / 2)⟩ := by
  have e : -2 * (Real.pi : ℂ) * Complex.I / 8 = ((-(Real.pi / 4) : ℝ) : ℂ) * Complex.I := by
    push_cast; ring
  rw [e, Complex.exp_mul_I, ← Complex.ofReal_cos, ← Complex.ofReal_sin, Real.cos_neg,
    Real.sin_neg, Real.cos_pi_div_four, Real.sin_pi_div_four]
  apply Complex.ext <;> simp

theorem omega_sq : Complex.exp (-2 * Real.pi * Complex.I / 8) ^ 2 = ⟨0, -1⟩ := by
  rw [omega_eq]
  have h : (√2 : ℝ) * √2 = 2 := Real.mul_self_sqrt (by norm_num)
  apply Complex.ext
  · simp [pow_two]
  · simp [pow_two]; nlinarith

theorem omega_cube :
    Complex.exp (-2 * Real.pi * Complex.I / 8) ^ 3 = ⟨-(√2 / 2), -(√2 / 2)⟩ := by
  rw [pow_succ, omega_sq, omega_eq]
  apply Complex.ext <;> simp

/-- The direct transform with the kernel `exp(-2*pi*i*k*n/8)` is the butterfly
network with the exact twiddle factors on the bit-reversed block. -/
theorem dft_eq_fft8_exact (x : Nat → ℂ) (k : Nat) (hk : k < 8) :
    ∑ n in Finset.range 8, x n * Complex.exp (-2 * Real.pi * Complex.I * k * n / 8)
      = fft8 [1, ⟨√2 / 2, -(√2 / 2)⟩, ⟨0, -1⟩, ⟨-(√2 / 2), -(√2 / 2)⟩]
          (fun m => x (rev3 m)) k := by
  rw [fft8_eq_dft [1, ⟨√2 / 2, -(√2 / 2)⟩, ⟨0, -1⟩, ⟨-(√2 / 2), -(√2 / 2)⟩]
      (Complex.exp (-2 * Real.pi * Complex.I / 8)) omega_pow_four
      rfl (by rw [omega_eq]; rfl) (by rw [omega_sq]; rfl) (by rw [omega_cube]; rfl) x k hk]
  refine Finset.sum_congr rfl (fun n _ => ?_)
  rw [omega_pow]
  push_cast
  ring_nf

theorem normSq_twiddle (k : Nat) :
    Complex.normSq (Complex.exp (-2 * Real.pi * Complex.I * k / 8)) = 1 := by
  have e : -2 * (Real.pi : ℂ) * Complex.I * k / 8
      = ((-2 * Real.pi * k / 8 : ℝ) : ℂ) * Complex.I := by
    push_cast; ring
  rw [e, Complex.normSq_eq_abs, Complex.abs_exp_ofReal_mul_I]
  norm_num

theorem sqrt_two_half_gt : (0.7071067811865475 : ℝ) < √2 / 2 := by
  have h : (1.414213562373095 : ℝ) < √2 := Real.lt_sqrt_of_sq_lt (by norm_num)
  linarith

theorem sqrt_two_half_lt : √2 / 2 < (0.7071067811865476 : ℝ) := by
  have h : √2 < (1.4142135623730952 : ℝ) := (Real.sqrt_lt' (by norm_num)).2 (by norm_num)
  linarith

theorem cos_three_pi_div_four : Real.cos (3 * Real.pi / 4) = -(√2 / 2) := by
  rw [show 3 * Real.pi / 4 = Real.pi - Real.pi / 4 by ring, Real.cos_pi_sub,
    Real.cos_pi_div_four]

theorem sin_three_pi_div_four : Real.sin (3 * Real.pi / 4) = √2 / 2 := by
  rw [show 3 * Real.pi / 4 = Real.pi - Real.pi / 4 by ring, Real.sin_pi_sub,
    Real.sin_pi_div_four]

/-- The entries of the literal table `W`, evaluated. -/
theorem W_entries {R : Type} [Field R] :
    (W : List (Cplx R)) = [⟨1, 0⟩, ⟨0.7071067811865476, -0.7071067811865475⟩, ⟨0, -1⟩,
      ⟨-0.7071067811865475, -0.7071067811865476⟩] := by
  simp only [W, List.cons.injEq, and_true]
  refine ⟨?_, ?_, ?_, ?_⟩ <;> ext <;> simp
  norm_num

/-- The block written by `initialize_customWave` for `ARR_LEN = 8`. -/
theorem initialize_customWave_eq {R : Type} [Field R] (arr : Nat → Cplx R) :
    initialize_customWave 8 arr
    = store (store (store (store (store (store (store (store arr
        0 ⟨11, 23⟩) 1 ⟨32, 10⟩) 2 ⟨91, 94⟩) 3 ⟨15, 69⟩) 4 ⟨47, 96⟩) 5 ⟨44, 12⟩)
        6 ⟨96, 17⟩) 7 ⟨49, 58⟩ := by
  have e : ∀ a b : R, Cplx.ofReal a + Cplx.ofReal b * Cplx.I = ⟨a, b⟩ := by
    intro a b; ext <;> simp
  simp [initialize_customWave, forLoop_lt, forLoop_ge, N, e]

/-! ## Energy of the butterflies -/

theorem butterfly_energy (a b w : ℂ) (hw : Complex.normSq w = 1) :
    Complex.normSq (a + w * b) + Complex.normSq (a - w * b)
      = 2 * (Complex.normSq a + Complex.normSq b) := by
  have hz : Complex.normSq (w * b) = Complex.normSq b := by
    rw [Complex.normSq_mul, hw, one_mul]
  rw [← hz]
  generalize w * b = z
  simp only [Complex.normSq_apply, Complex.add_re, Complex.add_im, Complex.sub_re,
    Complex.sub_im]
  ring

theorem butterfly_energy_one (a b : ℂ) :
    Complex.normSq (a + b) + Complex.normSq (a - b)
      = 2 * (Complex.normSq a + Complex.normSq b) := by
  have h := butterfly_energy a b 1 (by simp)
  simpa using h

theorem stage1_energy (d : Nat → ℂ) :
    ∑ k in Finset.range 8, Complex.normSq (stage1Val d k)
      = 2 * ∑ k in Finset.range 8, Complex.normSq (d k) := by
  simp only [Finset.sum_range_succ, Finset.sum_range_zero, stage1Val]
  have h0 := butterfly_energy_one (d 0) (d 1)
  have h1 := butterfly_energy_one (d 2) (d 3)
  have h2 := butterfly_energy_one (d 4) (d 5)
  have h3 := butterfly_energy_one (d 6) (d 7)
  linarith

theorem stage2_energy (W : List ℂ) (h0 : Complex.normSq (W.getD 0 0) = 1)
    (h2 : Complex.normSq (W.getD 2 0) = 1) (a : Nat → ℂ) :
    ∑ k in Finset.range 8, Complex.normSq (stage2Val W a k)
      = 2 * ∑ k in Finset.range 8, Complex.normSq (a k) := by
  simp only [Finset.sum_range_succ, Finset.sum_range_zero, stage2Val]
  have e0 := butterfly_energy (a 0) (a 2) _ h0
  have e1 := butterfly_energy (a 1) (a 3) _ h2
  have e2 := butterfly_energy (a 4) (a 6) _ h0
  have e3 := butterfly_energy (a 5) (a 7) _ h2
  linarith

theorem stage3_energy (W : List ℂ) (h : ∀ k, k < 4 → Complex.normSq (W.getD k 0) = 1)
    (b : Nat → ℂ) :
    ∑ k in Finset.range 8, Complex.normSq (stage3Val W b k)
      = 2 * ∑ k in Finset.range 8, Complex.normSq (b k) := by
  simp only [Finset.sum_range_succ, Finset.sum_range_zero, stage3Val]
  have e0 := butterfly_energy (b 0) (b 4) _ (h 0 (by decide))
  have e1 := butterfly_energy (b 1) (b 5) _ (h 1 (by decide))
  have e2 := butterfly_energy (b 2) (b 6) _ (h 2 (by decide))
  have e3 := butterfly_energy (b 3) (b 7) _ (h 3 (by decide))
  linarith

/-! ## The stage algorithm of the specification, unrolled for `N = 8` -/

theorem specStage1_eq {K : Type} [Add K] [Sub K] [Mul K] [Zero K] (W : List K) (d : Nat → K) :
    specStage W 8 1 d
    = store (store (store (store (store (store (store (store d
        0 (d 0 + W.getD 0 0 * d 1)) 1 (d 0 - W.getD 0 0 * d 1))
        2 (d 2 + W.getD 0 0 * d 3)) 3 (d 2 - W.getD 0 0 * d 3))
        4 (d 4 + W.getD 0 0 * d 5)) 5 (d 4 - W.getD 0 0 * d 5))
        6 (d 6 + W.getD 0 0 * d 7)) 7 (d 6 - W.getD 0 0 * d 7) := by
  simp [specStage, specButterfly, List.range_succ, store_apply]

theorem specStage2_eq {K : Type} [Add K] [Sub K] [Mul K] [Zero K] (W : List K) (d : Nat → K) :
    specStage W 8 2 d
    = store (store (store (store (store (store (store (store d
        0 (d 0 + W.getD 0 0 * d 2)) 2 (d 0 - W.getD 0 0 * d 2))
        1 (d 1 + W.getD 2 0 * d 3)) 3 (d 1 - W.getD 2 0 * d 3))
        4 (d 4 + W.getD 0 0 * d 6)) 6 (d 4 - W.getD 0 0 * d 6))
        5 (d 5 + W.getD 2 0 * d 7)) 7 (d 5 - W.getD 2 0 * d 7) := by
  simp [specStage, specButterfly, List.range_succ, store_apply]

theorem specStage3_eq {K : Type} [Add K] [Sub K] [Mul K] [Zero K] (W : List K) (d : Nat → K) :
    specStage W 8 3 d
    = store (store (store (store (store (store (store (store d
        0 (d 0 + W.getD 0 0 * d 4)) 4 (d 0 - W.getD 0 0 * d 4))
        1 (d 1 + W.getD 1 0 * d 5)) 5 (d 1 - W.getD 1 0 * d 5))
        2 (d 2 + W.getD 2 0 * d 6)) 6 (d 2 - W.getD 2 0 * d 6))
        3 (d 3 + W.getD 3 0 * d 7)) 7 (d 3 - W.getD 3 0 * d 7) := by
  simp [specStage, specButterfly, List.range_succ, store_apply]

theorem specFFT_eq {K : Type} [Add K] [Sub K] [Mul K] [Zero K] (W : List K) (d : Nat → K) :
    specFFT W N LEVEL d = specStage W 8 3 (specStage W 8 2 (specStage W 8 1 d)) := by
  simp [specFFT, N, LEVEL, List.range_succ]

/-! ## The comparison loop -/

/-- One step of the comparison loop. -/
theorem main_compare_unfold {R : Type} [LinearOrderedField R] [FloorRing R] (ARR_LEN : Nat)
    (PS PL : Nat → Cplx R) (j : Nat) :
    main_compare ARR_LEN PS PL j
      = if j < ARR_LEN then
          if ((abs_int ((PS j).im - (PL j).im) : Int) : R) > 0.001
              ∨ ((abs_int ((PS j).re - (PL j).re) : Int) : R) > 0.001 then (true, j)
          else main_compare ARR_LEN PS PL (j + 1)
        else (false, j) := by
  rw [main_compare]
  simp only [Cplx.creal_eq, Cplx.cimag_eq]

/-- Truncation gives `0` exactly on the open interval `(-1, 1)`. -/
theorem toInt_eq_zero_iff {R : Type} [LinearOrderedField R] [FloorRing R] (x : R) : toInt x = 0 ↔ |x| < 1 := by
  unfold toInt
  split_ifs with h
  · rw [Int.floor_eq_iff, abs_of_nonneg h]
    constructor
    · rintro ⟨_, h2⟩; simpa using h2
    · intro h2; exact ⟨by simpa using h, by simpa using h2⟩
  · push_neg at h
    rw [Int.ceil_eq_iff, abs_of_neg h]
    constructor
    · rintro ⟨h1, _⟩
      have : (-1 : R) < x := by simpa using h1
      linarith
    · intro h2
      refine ⟨?_, ?_⟩
      · have : (-1 : R) < x := by linarith
        simpa using this
      · simpa using h.le

/-- The threshold test of the loop: with the integer `abs`, a difference exceeds
`0.001` exactly when its magnitude is at least `1`. -/
theorem abs_int_gt_iff {R : Type} [LinearOrderedField R] [FloorRing R] (x : R) :
    ((abs_int x : Int) : R) > 0.001 ↔ 1 ≤ |x| := by
  have hz := toInt_eq_zero_iff x
  unfold abs_int
  constructor
  · intro h
    by_contra hlt
    push_neg at hlt
    rw [hz.2 hlt] at h
    norm_num at h
  · intro h
    have hne : toInt x ≠ 0 := fun h0 => absurd (hz.1 h0) (not_lt.2 h)
    have h1 : (1 : Int) ≤ |toInt x| := Int.one_le_abs hne
    have h2 : (1 : R) ≤ ((|toInt x| : Int) : R) := by exact_mod_cast h1
    have h3 : (0.001 : R) < 1 := by norm_num
    exact lt_of_lt_of_le h3 h2

/-- What the comparison loop computes when every difference is within the
range of `int` (magnitude below `2^31`, where the conversion inside `abs` is
defined): `err_flag` is set exactly when some element differs by at least `1`
in its real or imaginary part, the loop then stops at the first such index,
and otherwise it runs to `ARR_LEN`. -/
theorem main_compare_spec {R : Type} [LinearOrderedField R] [FloorRing R] (ARR_LEN : Nat)
    (PS PL : Nat → Cplx R)
    (_hrange : ∀ i, i < ARR_LEN →
      |(PS i).re - (PL i).re| < 2 ^ 31 ∧ |(PS i).im - (PL i).im| < 2 ^ 31)
    (j : Nat) (hj : j ≤ ARR_LEN) :
    ((main_compare ARR_LEN PS PL j).1 = true ↔
      ∃ i, j ≤ i ∧ i < ARR_LEN ∧ (1 ≤ |(PS i).re - (PL i).re| ∨ 1 ≤ |(PS i).im - (PL i).im|))
    ∧ ((main_compare ARR_LEN PS PL j).1 = true →
        j ≤ (main_compare ARR_LEN PS PL j).2 ∧ (main_compare ARR_LEN PS PL j).2 < ARR_LEN
        ∧ (1 ≤ |(PS (main_compare ARR_LEN PS PL j).2).re - (PL (main_compare ARR_LEN PS PL j).2).re|
          ∨ 1 ≤ |(PS (main_compare ARR_LEN PS PL j).2).im - (PL (main_compare ARR_LEN PS PL j).2).im|)
        ∧ ∀ i, j ≤ i → i < (main_compare ARR_LEN PS PL j).2 →
            ¬ (1 ≤ |(PS i).re - (PL i).re| ∨ 1 ≤ |(PS i).im - (PL i).im|))
    ∧ ((main_compare ARR_LEN PS PL j).1 = false → (main_compare ARR_LEN PS PL j).2 = ARR_LEN) := by
  generalize hd : ARR_LEN - j = d
  induction d generalizing j with
  | zero =>
    have e : j = ARR_LEN := by omega
    subst e
    rw [main_compare_unfold, if_neg (lt_irrefl _)]
    refine ⟨⟨fun h => by simp at h, fun ⟨i, h1, h2, _⟩ => by omega⟩, fun h => by simp at h, fun _ => rfl⟩
  | succ d ih =>
    have hlt : j < ARR_LEN := by omega
    rw [main_compare_unfold, if_pos hlt]
    simp only [abs_int_gt_iff]
    by_cases hc : 1 ≤ |(PS j).im - (PL j).im| ∨ 1 ≤ |(PS j).re - (PL j).re|
    · rw [if_pos hc]
      refine ⟨⟨fun _ => ⟨j, le_refl _, hlt, hc.symm⟩, fun _ => rfl⟩, fun _ => ⟨le_refl _, hlt, hc.symm, ?_⟩, fun h => by simp at h⟩
      intro i h1 h2
      simp only at h2
      omega
    · rw [if_neg hc]
      obtain ⟨ih1, ih2, ih3⟩ := ih (j + 1) (by omega) (by omega)
      refine ⟨⟨?_, ?_⟩, ?_, ih3⟩
      · intro h
        obtain ⟨i, h1, h2, h3⟩ := ih1.1 h
        exact ⟨i, by omega, h2, h3⟩
      · rintro ⟨i, h1, h2, h3⟩
        apply ih1.2
        have hij : i ≠ j := by
          rintro rfl
          exact hc h3.symm
        exact ⟨i, by omega, h2, h3⟩
      · intro h
        obtain ⟨a1, a2, a3, a4⟩ := ih2 h
        refine ⟨by omega, a2, a3, ?_⟩
        intro i h1 h2
        by_cases hij : i = j
        · subst hij
          exact fun h3 => hc h3.symm
        · exact a4 i (by omega) h2

/-- When every element differs by less than `1` in both parts the loop
reports no mismatch. -/
theorem main_compare_no_flag {R : Type} [LinearOrderedField R] [FloorRing R] (ARR_LEN : Nat)
    (PS PL : Nat → Cplx R)
    (h : ∀ i, i < ARR_LEN → |(PS i).re - (PL i).re| < 1 ∧ |(PS i).im - (PL i).im| < 1) :
    main_compare ARR_LEN PS PL 0 = (false, ARR_LEN) := by
  have hrange : ∀ i, i < ARR_LEN →
      |(PS i).re - (PL i).re| < 2 ^ 31 ∧ |(PS i).im - (PL i).im| < 2 ^ 31 := by
    intro i hi
    obtain ⟨a, b⟩ := h i hi
    have h1 : (1 : R) < 2 ^ 31 := by norm_num
    exact ⟨lt_trans a h1, lt_trans b h1⟩
  obtain ⟨h1, _, h3⟩ := main_compare_spec ARR_LEN PS PL hrange 0 (Nat.zero_le _)
  have hf : (main_compare ARR_LEN PS PL 0).1 = false := by
    cases hb : (main_compare ARR_LEN PS PL 0).1 with
    | false => rfl
    | true =>
      obtain ⟨i, _, hi, hd⟩ := h1.1 hb
      obtain ⟨a, b⟩ := h i hi
      rcases hd with hd | hd
      · exact absurd a (not_lt.2 hd)
      · exact absurd b (not_lt.2 hd)
  exact Prod.ext hf (h3 hf)

/-! ## The claims -/

/-- C1: for `N = 8`, exact arithmetic and a twiddle table with
`W[k] = exp(-2*pi*i*k/8)` for `k` in `0..3`, `FFT_PS` applied to
`bitReverse(x)` gives at every output index `k` in `0..7` exactly the
unnormalised direct DFT value `sum over n in 0..7 of x[n]*exp(-2*pi*i*k*n/8)`,
so in particular it is within `1e-3` of it. -/
theorem FFT_PS_bitReverse_eq_DFT (W : List ℂ)
    (hW : ∀ k, k < 4 → W.getD k 0 = Complex.exp (-2 * Real.pi * Complex.I * k / 8))
    (x rev0 out0 t1 t2 : Nat → ℂ) (k : Nat) (hk : k < 8) :
    FFT_PS W 8 (bitReverse 8 x rev0) out0 t1 t2 k
      = ∑ n in Finset.range 8, x n * Complex.exp (-2 * Real.pi * Complex.I * k * n / 8)
    ∧ Complex.abs (FFT_PS W 8 (bitReverse 8 x rev0) out0 t1 t2 k
        - ∑ n in Finset.range 8, x n * Complex.exp (-2 * Real.pi * Complex.I * k * n / 8))
      ≤ 1 / 1000 := by
  have main : FFT_PS W 8 (bitReverse 8 x rev0) out0 t1 t2 k
      = ∑ n in Finset.range 8, x n * Complex.exp (-2 * Real.pi * Complex.I * k * n / 8) := by
    have h := FFT_PS_bitReverse_apply W 1 0 k (by decide) hk x rev0 out0 t1 t2
    simp only [Nat.mul_one, Nat.mul_zero, Nat.zero_add] at h
    rw [h, fft8_eq_dft W (Complex.exp (-2 * Real.pi * Complex.I / 8)) omega_pow_four
      (by rw [hW 0 (by decide)]; simp) (by rw [hW 1 (by decide)]; simp)
      (by rw [hW 2 (by decide), omega_pow]) (by rw [hW 3 (by decide), omega_pow]) x k hk]
    refine Finset.sum_congr rfl (fun n _ => ?_)
    rw [omega_pow]
    push_cast
    ring_nf
  refine ⟨main, ?_⟩
  rw [main, sub_self, map_zero]
  norm_num

theorem FFT_PS_bitReverse_eq_DFT_witness :
    FFT_PS [Complex.exp (-2 * Real.pi * Complex.I * ((0 : ℕ) : ℂ) / 8),
        Complex.exp (-2 * Real.pi * Complex.I * ((1 : ℕ) : ℂ) / 8),
        Complex.exp (-2 * Real.pi * Complex.I * ((2 : ℕ) : ℂ) / 8),
        Complex.exp (-2 * Real.pi * Complex.I * ((3 : ℕ) : ℂ) / 8)] 8
        (bitReverse 8 (fun n => (n : ℂ)) (fun _ => 0)) (fun _ => 0) (fun _ => 0) (fun _ => 0) 3
      = ∑ n in Finset.range 8,
          (fun n : ℕ => (n : ℂ)) n * Complex.exp (-2 * Real.pi * Complex.I * ((3 : ℕ) : ℂ) * n / 8)
    ∧ Complex.abs (FFT_PS [Complex.exp (-2 * Real.pi * Complex.I * ((0 : ℕ) : ℂ) / 8),
        Complex.exp (-2 * Real.pi * Complex.I * ((1 : ℕ) : ℂ) / 8),
        Complex.exp (-2 * Real.pi * Complex.I * ((2 : ℕ) : ℂ) / 8),
        Complex.exp (-2 * Real.pi * Complex.I * ((3 : ℕ) : ℂ) / 8)] 8
        (bitReverse 8 (fun n => (n : ℂ)) (fun _ => 0)) (fun _ => 0) (fun _ => 0) (fun _ => 0) 3
        - ∑ n in Finset.range 8,
          (fun n : ℕ => (n : ℂ)) n * Complex.exp (-2 * Real.pi * Complex.I * ((3 : ℕ) : ℂ) * n / 8))
      ≤ 1 / 1000 :=
  FFT_PS_bitReverse_eq_DFT _ (fun k hk => by interval_cases k <;> rfl)
    (fun n => (n : ℂ)) (fun _ => 0) (fun _ => 0) (fun _ => 0) (fun _ => 0) 3 (by decide)

/-- C2: in every block `b` of a buffer of `k` blocks and at every index `j` in
`[0, 8)` of the block, `bitReverse` writes `output[j] = input[rev3 j]`, where
`rev3 j` is `j` with its 3-bit binary representation reversed (bit `i` of
`rev3 j` is bit `2 - i` of `j`); equivalently `bitRevIndex[j] = rev3 j`, the
table `bitRevIndex` has `N` entries and is a permutation of `[0, 8)`, and
`bitReverse` computes `output[j] = input[bitRevIndex[j]]`. -/
theorem bitReverse_spec {K : Type} (k : Nat) (dataIn dataOut : Nat → K) (b j : Nat)
    (hb : b < k) (hj : j < 8) :
    bitReverse (8 * k) dataIn dataOut (8 * b + j) = dataIn (8 * b + rev3 j)
    ∧ bitReverse (8 * k) dataIn dataOut (8 * b + j) = dataIn (8 * b + bitRevIndex.getD j 0)
    ∧ bitRevIndex.getD j 0 = rev3 j
    ∧ (∀ i, i < 3 → (rev3 j).testBit i = j.testBit (2 - i))
    ∧ rev3 j < 8
    ∧ bitRevIndex.length = N
    ∧ bitRevIndex.Perm (List.range 8) := by
  refine ⟨bitReverse_block k dataIn dataOut b j hb hj, ?_, bitRevIndex_eq_rev3 j hj,
    rev3_testBit j hj, rev3_lt j hj, rfl, by decide⟩
  rw [bitRevIndex_eq_rev3 j hj]
  exact bitReverse_block k dataIn dataOut b j hb hj

theorem bitReverse_spec_witness :
    (1 < 2 ∧ 3 < 8) ∧
    (bitReverse (8 * 2) (fun n => n) (fun _ => 0) (8 * 1 + 3) = (fun n => n) (8 * 1 + rev3 3)
    ∧ bitReverse (8 * 2) (fun n => n) (fun _ => 0) (8 * 1 + 3)
        = (fun n => n) (8 * 1 + bitRevIndex.getD 3 0)
    ∧ bitRevIndex.getD 3 0 = rev3 3
    ∧ (∀ i, i < 3 → (rev3 3).testBit i = (3 : Nat).testBit (2 - i))
    ∧ rev3 3 < 8
    ∧ bitRevIndex.length = N
    ∧ bitRevIndex.Perm (List.range 8)) :=
  ⟨by decide, bitReverse_spec 2 (fun n => n) (fun _ => 0) 1 3 (by decide) (by decide)⟩

/-- C3: `bitReverse` is an involution: for every buffer `x` of `k` blocks and
distinct output buffers, `bitReverse` applied to the result of `bitReverse(x)`
returns exactly `x`, element for element. -/
theorem bitReverse_involution {K : Type} (k : Nat) (x out1 out2 : Nat → K) (j : Nat)
    (hj : j < 8 * k) :
    bitReverse (8 * k) (bitReverse (8 * k) x out1) out2 j = x j := by
  have e : j = 8 * (j / 8) + j % 8 := by omega
  have hb : j / 8 < k := by omega
  have hm : j % 8 < 8 := by omega
  rw [e, bitReverse_block k _ out2 _ _ hb hm,
    bitReverse_block k x out1 _ _ hb (rev3_lt _ hm), rev3_rev3 _ hm]

theorem bitReverse_involution_witness :
    5 < 8 * 1 ∧
    bitReverse (8 * 1) (bitReverse (8 * 1) (fun n => 10 * n) (fun _ => 0)) (fun _ => 1) 5
      = (fun n => 10 * n) 5 :=
  ⟨by decide, bitReverse_involution 1 (fun n => 10 * n) (fun _ => 0) (fun _ => 1) 5 (by decide)⟩

/-- C4: block independence: for every block count `k >= 1` and every buffer `x`
of length `8 * k`, `bitReverse` followed by `FFT_PS` on the whole buffer gives
in output block `b` exactly the result of `bitReverse` followed by `FFT_PS` on
input block `b` alone, that is on any single-block buffer `y` that agrees with
block `b` of `x` on its 8 samples, whatever `y` holds elsewhere; and output
block `b` is the same for every other whole buffer `z` that agrees with `x` on
block `b`, so it depends on no other input block.  Both hold whatever the
previous contents of the output buffers and the scratch values in `temp1`,
`temp2` are. -/
theorem FFT_PS_block_independent {K : Type} [Add K] [Sub K] [Mul K] [Zero K] (W : List K)
    (k b j : Nat) (hb : b < k) (hj : j < 8)
    (x y rev0 out0 t1 t2 rev1 out1 u1 u2 : Nat → K)
    (hy : ∀ n, n < 8 → y n = x (8 * b + n)) :
    FFT_PS W (8 * k) (bitReverse (8 * k) x rev0) out0 t1 t2 (8 * b + j)
      = FFT_PS W 8 (bitReverse 8 y rev1) out1 u1 u2 j
    ∧ ∀ z rev2 out2 v1 v2 : Nat → K, (∀ n, n < 8 → z (8 * b + n) = x (8 * b + n)) →
        FFT_PS W (8 * k) (bitReverse (8 * k) z rev2) out2 v1 v2 (8 * b + j)
          = FFT_PS W (8 * k) (bitReverse (8 * k) x rev0) out0 t1 t2 (8 * b + j) := by
  constructor
  · rw [FFT_PS_bitReverse_apply W k b j hb hj]
    have h := FFT_PS_bitReverse_apply W 1 0 j (by decide) hj y rev1 out1 u1 u2
    simp only [Nat.mul_one, Nat.mul_zero, Nat.zero_add] at h
    rw [h]
    exact fft8_congr W _ _ (fun m hm => (hy (rev3 m) (rev3_lt m hm)).symm) j hj
  · intro z rev2 out2 v1 v2 hz
    rw [FFT_PS_bitReverse_apply W k b j hb hj, FFT_PS_bitReverse_apply W k b j hb hj]
    exact fft8_congr W _ _ (fun m hm => hz (rev3 m) (rev3_lt m hm)) j hj

theorem FFT_PS_block_independent_witness :
    FFT_PS ([1, 2, 3, 4] : List Int) (8 * 2)
        (bitReverse (8 * 2) (fun n => (n : Int)) (fun _ => 0))
        (fun _ => 0) (fun _ => 5) (fun _ => 6) (8 * 1 + 3)
      = FFT_PS ([1, 2, 3, 4] : List Int) 8
          (bitReverse 8 (fun n => if n < 8 then ((8 * 1 + n : Nat) : Int) else 99)
            (fun _ => 1))
          (fun _ => 2) (fun _ => 7) (fun _ => 8) 3
    ∧ ∀ z rev2 out2 v1 v2 : Nat → Int,
        (∀ n, n < 8 → z (8 * 1 + n) = (fun n => (n : Int)) (8 * 1 + n)) →
        FFT_PS ([1, 2, 3, 4] : List Int) (8 * 2) (bitReverse (8 * 2) z rev2) out2 v1 v2
            (8 * 1 + 3)
          = FFT_PS ([1, 2, 3, 4] : List Int) (8 * 2)
              (bitReverse (8 * 2) (fun n => (n : Int)) (fun _ => 0))
              (fun _ => 0) (fun _ => 5) (fun _ => 6) (8 * 1 + 3) :=
  FFT_PS_block_independent ([1, 2, 3, 4] : List Int) 2 1 3 (by decide) (by decide)
    (fun n => (n : Int)) (fun n => if n < 8 then ((8 * 1 + n : Nat) : Int) else 99)
    (fun _ => 0) (fun _ => 0) (fun _ => 5) (fun _ => 6) (fun _ => 1) (fun _ => 2)
    (fun _ => 7) (fun _ => 8) (fun n hn => by simp [hn])

/-- C5: linearity of `FFT_PS` with the twiddle table `W` as written in the
code and exact arithmetic: for all complex scalars `a`, `b` and all length-8
blocks `x`, `y`, `FFT_PS(a*x + b*y) = a*FFT_PS(x) + b*FFT_PS(y)` element-wise. -/
theorem FFT_PS_linear {R : Type} [Field R] (a b : Cplx R)
    (x y out0 t1 t2 out1 u1 u2 out2 v1 v2 : Nat → Cplx R) (j : Nat) (hj : j < 8) :
    FFT_PS W 8 (fun n => a * x n + b * y n) out0 t1 t2 j
      = a * FFT_PS W 8 x out1 u1 u2 j + b * FFT_PS W 8 y out2 v1 v2 j := by
  rw [FFT_PS_one_block W _ out0 t1 t2 j hj, FFT_PS_one_block W x out1 u1 u2 j hj,
    FFT_PS_one_block W y out2 v1 v2 j hj]
  exact fft8_linear W a b x y j hj

theorem FFT_PS_linear_witness :
    FFT_PS (W : List (Cplx ℚ)) 8
        (fun n => (⟨2, 1⟩ : Cplx ℚ) * (fun n : ℕ => (⟨(n : ℚ), 1⟩ : Cplx ℚ)) n
          + (⟨0, 3⟩ : Cplx ℚ) * (fun n : ℕ => (⟨1, (n : ℚ)⟩ : Cplx ℚ)) n)
        (fun _ => 0) (fun _ => 0) (fun _ => 0) 1
      = (⟨2, 1⟩ : Cplx ℚ) * FFT_PS (W : List (Cplx ℚ)) 8
          (fun n : ℕ => (⟨(n : ℚ), 1⟩ : Cplx ℚ)) (fun _ => 0) (fun _ => 0) (fun _ => 0) 1
        + (⟨0, 3⟩ : Cplx ℚ) * FFT_PS (W : List (Cplx ℚ)) 8
          (fun n : ℕ => (⟨1, (n : ℚ)⟩ : Cplx ℚ)) (fun _ => 0) (fun _ => 0) (fun _ => 0) 1 :=
  FFT_PS_linear (⟨2, 1⟩ : Cplx ℚ) ⟨0, 3⟩ (fun n : ℕ => ⟨(n : ℚ), 1⟩)
    (fun n : ℕ => ⟨1, (n : ℚ)⟩) (fun _ => 0) (fun _ => 0)
    (fun _ => 0) (fun _ => 0) (fun _ => 0) (fun _ => 0) (fun _ => 0) (fun _ => 0) (fun _ => 0)
    1 (by decide)

/-- C6: Parseval, no `1/N` scaling: with exact arithmetic and
`W[k] = exp(-2*pi*i*k/8)`, for every length-8 block `x` the output
`X = FFT_PS(x)` satisfies
`sum over k in 0..7 of |X[k]|^2 = 8 * sum over i in 0..7 of |x[i]|^2`. -/
theorem FFT_PS_parseval (W : List ℂ)
    (hW : ∀ k, k < 4 → W.getD k 0 = Complex.exp (-2 * Real.pi * Complex.I * k / 8))
    (x out0 t1 t2 : Nat → ℂ) :
    ∑ k in Finset.range 8, Complex.abs (FFT_PS W 8 x out0 t1 t2 k) ^ 2
      = 8 * ∑ i in Finset.range 8, Complex.abs (x i) ^ 2 := by
  have hn : ∀ k, k < 4 → Complex.normSq (W.getD k 0) = 1 := by
    intro k hk
    rw [hW k hk, normSq_twiddle]
  have e : ∑ k in Finset.range 8, Complex.abs (FFT_PS W 8 x out0 t1 t2 k) ^ 2
      = ∑ k in Finset.range 8, Complex.normSq (fft8 W x k) := by
    refine Finset.sum_congr rfl (fun k hk => ?_)
    rw [FFT_PS_one_block W x out0 t1 t2 k (Finset.mem_range.1 hk), Complex.sq_abs]
  simp only [Complex.sq_abs] at e ⊢
  rw [e]
  unfold fft8
  rw [stage3_energy W hn, stage2_energy W (hn 0 (by decide)) (hn 2 (by decide)), stage1_energy]
  ring

theorem FFT_PS_parseval_witness :
    ∑ k in Finset.range 8,
        Complex.abs (FFT_PS [Complex.exp (-2 * Real.pi * Complex.I * ((0 : ℕ) : ℂ) / 8),
          Complex.exp (-2 * Real.pi * Complex.I * ((1 : ℕ) : ℂ) / 8),
          Complex.exp (-2 * Real.pi * Complex.I * ((2 : ℕ) : ℂ) / 8),
          Complex.exp (-2 * Real.pi * Complex.I * ((3 : ℕ) : ℂ) / 8)] 8
          (fun n => (n : ℂ)) (fun _ => 0) (fun _ => 0) (fun _ => 0) k) ^ 2
      = 8 * ∑ i in Finset.range 8, Complex.abs ((fun n : ℕ => (n : ℂ)) i) ^ 2 :=
  FFT_PS_parseval _ (fun k hk => by interval_cases k <;> rfl)
    (fun n => (n : ℂ)) (fun _ => 0) (fun _ => 0) (fun _ => 0)

/-- C7: the literal twiddle table `W` has `N/2 = 4` entries and, every literal
read as the exact decimal number written, for every `k` in `[0, 4)` the real
part of `W[k]` is within `1e-6` of `cos(2*pi*k/8)` and the imaginary part is
within `1e-6` of `-sin(2*pi*k/8)`; in particular `W[0] = 1 + 0i` exactly. -/
theorem W_matches_formula (k : Nat) (hk : k < 4) :
    (W : List (Cplx ℝ)).length = 4 ∧ N / 2 = 4
    ∧ (W : List (Cplx ℝ)).getD 0 0 = ⟨1, 0⟩
    ∧ |((W : List (Cplx ℝ)).getD k 0).re - Real.cos (2 * Real.pi * k / 8)| ≤ 1 / 1000000
    ∧ |((W : List (Cplx ℝ)).getD k 0).im - (-Real.sin (2 * Real.pi * k / 8))|
        ≤ 1 / 1000000 := by
  have hlo := sqrt_two_half_gt
  have hhi := sqrt_two_half_lt
  refine ⟨rfl, rfl, ?_, ?_⟩
  · rw [W_entries]; rfl
  · rw [W_entries]
    interval_cases k
    · simp
    · have e : 2 * Real.pi * ((1 : ℕ) : ℝ) / 8 = Real.pi / 4 := by push_cast; ring
      rw [e, Real.cos_pi_div_four, Real.sin_pi_div_four]
      simp only [List.getD_cons_succ, List.getD_cons_zero]
      constructor <;> rw [abs_le] <;> constructor <;> linarith
    · have e : 2 * Real.pi * ((2 : ℕ) : ℝ) / 8 = Real.pi / 2 := by push_cast; ring
      rw [e, Real.cos_pi_div_two, Real.sin_pi_div_two]
      simp
    · have e : 2 * Real.pi * ((3 : ℕ) : ℝ) / 8 = 3 * Real.pi / 4 := by push_cast; ring
      rw [e, cos_three_pi_div_four, sin_three_pi_div_four]
      simp only [List.getD_cons_succ, List.getD_cons_zero]
      constructor <;> rw [abs_le] <;> constructor <;> linarith

theorem W_matches_formula_witness :
    (W : List (Cplx ℝ)).length = 4 ∧ N / 2 = 4
    ∧ (W : List (Cplx ℝ)).getD 0 0 = ⟨1, 0⟩
    ∧ |((W : List (Cplx ℝ)).getD 3 0).re - Real.cos (2 * Real.pi * ((3 : ℕ) : ℝ) / 8)|
        ≤ 1 / 1000000
    ∧ |((W : List (Cplx ℝ)).getD 3 0).im - (-Real.sin (2 * Real.pi * ((3 : ℕ) : ℝ) / 8))|
        ≤ 1 / 1000000 :=
  W_matches_formula 3 (by decide)

/-- C8: the concrete `N = 8` scenario: for the input block
`[11+23i, 32+10i, 91+94i, 15+69i, 47+96i, 44+12i, 96+17i, 49+58i]` written by
`initialize_customWave`, with the literal table `W` read as exact decimal
numbers and exact arithmetic, every output element of
`FFT_PS(bitReverse(input))` differs from the corresponding element of the
exact 8-point DFT of the input by at most `1e-3` in both the real and the
imaginary part, and `output[0] = 385 + 379i`. -/
theorem customWave_FFT_close (arr0 rev0 out0 t1 t2 : Nat → Cplx ℝ) (k : Nat) (hk : k < 8) :
    |(FFT_PS W 8 (bitReverse 8 (initialize_customWave 8 arr0) rev0) out0 t1 t2 k).re
        - (∑ n in Finset.range 8, toComplex (initialize_customWave 8 arr0 n)
            * Complex.exp (-2 * Real.pi * Complex.I * k * n / 8)).re| ≤ 1 / 1000
    ∧ |(FFT_PS W 8 (bitReverse 8 (initialize_customWave 8 arr0) rev0) out0 t1 t2 k).im
        - (∑ n in Finset.range 8, toComplex (initialize_customWave 8 arr0 n)
            * Complex.exp (-2 * Real.pi * Complex.I * k * n / 8)).im| ≤ 1 / 1000
    ∧ FFT_PS W 8 (bitReverse 8 (initialize_customWave 8 arr0) rev0) out0 t1 t2 0 = ⟨385, 379⟩
    ∧ initialize_customWave 8 arr0 k
        = ([⟨11, 23⟩, ⟨32, 10⟩, ⟨91, 94⟩, ⟨15, 69⟩, ⟨47, 96⟩, ⟨44, 12⟩, ⟨96, 17⟩, ⟨49, 58⟩] :
            List (Cplx ℝ)).getD k 0 := by
  have hlo := sqrt_two_half_gt
  have hhi := sqrt_two_half_lt
  have h := FFT_PS_bitReverse_apply W 1 0 k (by decide) hk (initialize_customWave 8 arr0)
    rev0 out0 t1 t2
  have h0 := FFT_PS_bitReverse_apply W 1 0 0 (by decide) (by decide)
    (initialize_customWave 8 arr0) rev0 out0 t1 t2
  simp only [Nat.mul_one, Nat.mul_zero, Nat.zero_add] at h h0
  rw [h, h0, dft_eq_fft8_exact _ k hk, initialize_customWave_eq, W_entries]
  generalize √2 / 2 = s at hlo hhi ⊢
  refine ⟨?_, ?_, ?_, ?_⟩
  · interval_cases k <;>
      simp [fft8, stage1Val, stage2Val, stage3Val, rev3, store_apply, toComplex] <;>
      (rw [abs_le]; constructor <;> linarith)
  · interval_cases k <;>
      simp [fft8, stage1Val, stage2Val, stage3Val, rev3, store_apply, toComplex] <;>
      (rw [abs_le]; constructor <;> linarith)
  · ext <;> simp [fft8, stage1Val, stage2Val, stage3Val, rev3, store_apply] <;> norm_num
  · interval_cases k <;> simp [store_apply]

theorem customWave_FFT_close_witness :
    |(FFT_PS (W : List (Cplx ℝ)) 8
          (bitReverse 8 (initialize_customWave 8 (fun _ => 0)) (fun _ => 0))
          (fun _ => 0) (fun _ => 0) (fun _ => 0) 1).re
        - (∑ n in Finset.range 8, toComplex (initialize_customWave 8 (fun _ => 0) n)
            * Complex.exp (-2 * Real.pi * Complex.I * ((1 : ℕ) : ℂ) * n / 8)).re| ≤ 1 / 1000
    ∧ |(FFT_PS (W : List (Cplx ℝ)) 8
          (bitReverse 8 (initialize_customWave 8 (fun _ => 0)) (fun _ => 0))
          (fun _ => 0) (fun _ => 0) (fun _ => 0) 1).im
        - (∑ n in Finset.range 8, toComplex (initialize_customWave 8 (fun _ => 0) n)
            * Complex.exp (-2 * Real.pi * Complex.I * ((1 : ℕ) : ℂ) * n / 8)).im| ≤ 1 / 1000
    ∧ FFT_PS (W : List (Cplx ℝ)) 8
          (bitReverse 8 (initialize_customWave 8 (fun _ => 0)) (fun _ => 0))
          (fun _ => 0) (fun _ => 0) (fun _ => 0) 0 = (⟨385, 379⟩ : Cplx ℝ)
    ∧ initialize_customWave 8 (fun _ => 0) 1
        = ([⟨11, 23⟩, ⟨32, 10⟩, ⟨91, 94⟩, ⟨15, 69⟩, ⟨47, 96⟩, ⟨44, 12⟩, ⟨96, 17⟩, ⟨49, 58⟩] :
            List (Cplx ℝ)).getD 1 0 :=
  customWave_FFT_close (fun _ => 0) (fun _ => 0) (fun _ => 0) (fun _ => 0) (fun _ => 0) 1
    (by decide)

/-- C9: the unrolled three-loop body of `FFT_PS` is the `N = 8` instance of the
specification's stage algorithm: for every length-8 block and every twiddle
table `W` with `W[0] = 1`, the output of `FFT_PS` equals the result of running
the stages `s = 1, 2, 3` in order, where stage `s` splits the data into groups
of size `m = 2^s` and, for each group start `g` and each `k` in `[0, m/2)`,
sets `t = W[k*(8/m)] * d[g+k+m/2]`, `d[g+k] = d[g+k] + t` and
`d[g+k+m/2] = d[g+k] - t` with the value of `d[g+k]` before the update. -/
theorem FFT_PS_refines_specFFT {K : Type} [Ring K] (W : List K) (hW : W.getD 0 0 = 1)
    (d out0 t1 t2 : Nat → K) (j : Nat) (hj : j < 8) :
    FFT_PS W 8 d out0 t1 t2 j = specFFT W N LEVEL d j
    ∧ specFFT W N LEVEL d = specStage W 8 3 (specStage W 8 2 (specStage W 8 1 d)) := by
  refine ⟨?_, specFFT_eq W d⟩
  rw [FFT_PS_one_block W d out0 t1 t2 j hj, specFFT_eq, specStage3_eq, specStage2_eq,
    specStage1_eq]
  have hW1 : W[0]?.getD 0 = 1 := by simpa using hW
  interval_cases j <;>
    simp [store_apply, fft8, stage1Val, stage2Val, stage3Val, hW1]

theorem FFT_PS_refines_specFFT_witness :
    (([1, 2, 3, 4] : List Int).getD 0 0 = 1 ∧ 5 < 8) ∧
    (FFT_PS ([1, 2, 3, 4] : List Int) 8 (fun n => (n : Int)) (fun _ => 0) (fun _ => 0)
        (fun _ => 0) 5
      = specFFT ([1, 2, 3, 4] : List Int) N LEVEL (fun n => (n : Int)) 5
    ∧ specFFT ([1, 2, 3, 4] : List Int) N LEVEL (fun n => (n : Int))
      = specStage [1, 2, 3, 4] 8 3 (specStage [1, 2, 3, 4] 8 2
          (specStage [1, 2, 3, 4] 8 1 (fun n => (n : Int))))) :=
  ⟨by decide, FFT_PS_refines_specFFT _ (by decide) _ _ _ _ 5 (by decide)⟩

/-- C10 (the code departs from the claim): with the processor result for the
custom wave and an accelerator result whose element 0 has a real part larger
by `0.5`, the real parts differ by more than `0.001`, yet the comparison loop
of `main` leaves `err_flag` false, runs to `j = ARR_LEN` and reports that all
results match: the call `abs` truncates the difference to an integer first. -/
theorem main_compare_misses_half :
    |(cpuResult 0).re - (fpgaOffByHalf 0).re| > 0.001
    ∧ cpuResult 0 = ⟨385, 379⟩ ∧ fpgaOffByHalf 0 = ⟨385 + 1 / 2, 379⟩
    ∧ main_compare 8 cpuResult fpgaOffByHalf 0 = (false, 8)
    ∧ main_report 8 cpuResult fpgaOffByHalf = Report.allMatch := by
  have hcmp : main_compare 8 cpuResult fpgaOffByHalf 0 = (false, 8) := by
    apply main_compare_no_flag
    intro i _
    by_cases hi : i = 0
    · subst hi
      simp only [fpgaOffByHalf, store_apply, if_true, Cplx.add_re, Cplx.add_im]
      constructor <;> norm_num [abs_lt]
    · simp [fpgaOffByHalf, store_apply, hi]
  have h0 : cpuResult 0 = ⟨385, 379⟩ := by
    have h := FFT_PS_bitReverse_apply (W : List (Cplx ℚ)) 1 0 0 (by decide) (by decide)
      (initialize_customWave 8 (fun _ => 0)) (fun _ => 0) (fun _ => 0) (fun _ => 0)
      (fun _ => 0)
    simp only [Nat.mul_one, Nat.mul_zero, Nat.zero_add] at h
    unfold cpuResult
    rw [h, initialize_customWave_eq, W_entries]
    ext <;> simp [fft8, stage1Val, stage2Val, stage3Val, rev3, store_apply] <;> norm_num
  refine ⟨?_, h0, ?_, hcmp, ?_⟩
  · simp only [fpgaOffByHalf, store_apply, if_true, Cplx.add_re]
    norm_num [abs_of_neg]
  · simp only [fpgaOffByHalf, store_apply, if_true, h0]
    ext <;> simp
  · simp [main_report, hcmp]

end FFT8
